import Mathlib

/-!
# QgsOptional and QgsVisibilityPresetCollection

A shallow embedding of the two headers

* `src/debug/include/qgsoptional.h`
* `src/debug/include/qgsvisibilitypresetcollection.h`

together with the small part of the Qt container library they rely on
(`QStringList`, `QSet<QString>`, `QMap<Key, T>`).

Layout: Qt container models, then the embedded classes, then the properties. The member
functions that the header defines inline are translated from their bodies; those it only
declares are modelled from the specification and say so. Two well-formedness lemmas stand next
to `QMap.insert`, whose definition needs them.
-/

/-! ## Qt containers -/

/-- Qt `QString`. The headers use strings as values and as `QMap` keys, that is through
equality and the strict order `operator<` only; the map model below is stated for any linearly
ordered key type. -/
abbrev QString := String

/-- Qt `QStringList`: an ordered sequence of strings. -/
abbrev QStringList := List QString

/-- Qt `QSet<T>`: an unordered collection without repetitions; `operator==` is set equality. -/
abbrev QSet (α : Type) := Finset α

namespace QStringList

/-- Qt `QList<QString>::toSet()`: the set of the elements occurring in the list. -/
def toSet (l : QStringList) : QSet QString := List.toFinset l

/-- Qt `QList<T>::removeAll(value)`: drops every occurrence of `value`, the rest keeps its order. -/
def removeAll (l : QStringList) (value : QString) : QStringList :=
  l.filter (fun x => decide (x ≠ value))

end QStringList

/-- Qt `QMap<Key, T>`: a dictionary whose items are kept in ascending key order, one item per
key. `entries` is the item sequence in iteration order (`begin()` to `end()`). -/
structure QMap (K V : Type) [LinearOrder K] where
  entries : List (K × V)
  sorted : entries.Pairwise (fun a b => a.1 < b.1)

namespace QMap

variable {K V W : Type} [LinearOrder K]

/-- Placing an item into an ascending item sequence; an item with an equivalent key (neither
key less than the other) has its value replaced. -/
def insertEntry (key : K) (value : V) : List (K × V) → List (K × V)
  | [] => [(key, value)]
  | e :: t =>
    if key < e.1 then (key, value) :: e :: t
    else if e.1 < key then e :: insertEntry key value t
    else (key, value) :: t

/-- Searching an item sequence for a key. -/
def findEntry (key : K) : List (K × V) → Option V
  | [] => none
  | e :: t => if e.1 = key then some e.2 else findEntry key t

theorem mem_insertEntry {key : K} {value : V} {l : List (K × V)} {x : K × V}
    (h : x ∈ insertEntry key value l) : x = (key, value) ∨ x ∈ l := by
  induction l with
  | nil =>
    simp only [insertEntry, List.mem_singleton] at h
    exact Or.inl h
  | cons e t ih =>
    simp only [insertEntry] at h
    split_ifs at h with h1 h2
    · rcases List.mem_cons.1 h with h | h
      · exact Or.inl h
      · exact Or.inr h
    · rcases List.mem_cons.1 h with h | h
      · exact Or.inr (h ▸ List.mem_cons_self _ _)
      · rcases ih h with h | h
        · exact Or.inl h
        · exact Or.inr (List.mem_cons_of_mem _ h)
    · rcases List.mem_cons.1 h with h | h
      · exact Or.inl h
      · exact Or.inr (List.mem_cons_of_mem _ h)

theorem sorted_insertEntry (key : K) (value : V) {l : List (K × V)}
    (hl : l.Pairwise (fun a b => a.1 < b.1)) :
    (insertEntry key value l).Pairwise (fun a b => a.1 < b.1) := by
  induction l with
  | nil => simp [insertEntry]
  | cons e t ih =>
    have ht := (List.pairwise_cons.1 hl).2
    have he := (List.pairwise_cons.1 hl).1
    simp only [insertEntry]
    split_ifs with h1 h2
    · refine List.pairwise_cons.2 ⟨?_, hl⟩
      intro x hx
      rcases List.mem_cons.1 hx with hx | hx
      · subst hx
        exact h1
      · exact lt_trans h1 (he x hx)
    · refine List.pairwise_cons.2 ⟨?_, ih ht⟩
      intro x hx
      rcases mem_insertEntry hx with hx | hx
      · subst hx
        exact h2
      · exact he x hx
    · have hk : key = e.1 := le_antisymm (not_lt.1 h2) (not_lt.1 h1)
      refine List.pairwise_cons.2 ⟨?_, ht⟩
      intro x hx
      show key < x.1
      rw [hk]
      exact he x hx

/-- The empty map, `QMap()`. -/
def empty : QMap K V := { entries := [], sorted := List.Pairwise.nil }

/-- Qt `QMap::insert(key, value)`: adds the item, or replaces the value of an existing key. -/
def insert (m : QMap K V) (key : K) (value : V) : QMap K V :=
  { entries := insertEntry key value m.entries
    sorted := sorted_insertEntry key value m.sorted }

/-- Qt `QMap::remove(key)`: removes the items whose key is `key`. -/
def remove (m : QMap K V) (key : K) : QMap K V :=
  { entries := m.entries.filter (fun e => decide (e.1 ≠ key))
    sorted := m.sorted.filter _ }

/-- Lookup of a key: the stored value, if there is one. -/
def find (m : QMap K V) (key : K) : Option V := findEntry key m.entries

/-- Qt `QMap::value(key)`, which is also `operator[](key) const`: the stored value, or a
default-constructed value when the map has no item with that key. -/
def value [Inhabited V] (m : QMap K V) (key : K) : V := (m.find key).getD default

/-- Qt `QMap::keys()`: the keys in ascending order. -/
def keys (m : QMap K V) : List K := m.entries.map Prod.fst

/-- Qt `QMap::size()`. -/
def size (m : QMap K V) : Nat := m.entries.length

/-- Loop `for ( it = begin(); it != end(); ++it ) it.value() = f( it.value() )`: every stored
value is rewritten in place, the keys stay. -/
def mapValues (f : V → W) (m : QMap K V) : QMap K W :=
  { entries := m.entries.map (fun e => (e.1, f e.2))
    sorted := List.pairwise_map.2 m.sorted }

/-- The item-by-item comparison loop of `QMap::operator==`, run until the first sequence is
exhausted: unequal values, or keys of which one is less than the other, end it with `false`.
(The second sequence is never the shorter one: the sizes are compared first.) -/
def entriesEq [DecidableEq V] : List (K × V) → List (K × V) → Bool
  | [], _ => true
  | _ :: _, [] => false
  | a :: s, b :: t =>
    if ¬ (a.2 = b.2) ∨ a.1 < b.1 ∨ b.1 < a.1 then false else entriesEq s t

/-- Qt `QMap::operator==`: `false` when the sizes differ, otherwise the comparison loop. -/
def operatorEq [DecidableEq V] (m other : QMap K V) : Bool :=
  if m.size ≠ other.size then false else entriesEq m.entries other.entries

/-- Inserting the items of a sequence one after the other. -/
def insertAll (m : QMap K V) (items : List (K × V)) : QMap K V :=
  items.foldl (fun acc e => acc.insert e.1 e.2) m

end QMap

/-! ## qgsoptional.h -/

/-- The class template `QgsOptional<T>`: a payload with an enabled/disabled flag
(private members `mEnabled`, `mData`). -/
structure QgsOptional (T : Type) where
  mEnabled : Bool
  mData : T

namespace QgsOptional

variable {T : Type}

/-- Constructor `QgsOptional()`: `mEnabled( false )`; `mData` is default-initialised. -/
def mkDefault [Inhabited T] : QgsOptional T := { mEnabled := false, mData := default }

/-- Constructor `QgsOptional( const T& data )`: `mEnabled( true ), mData( data )`. -/
def ofData (data : T) : QgsOptional T := { mEnabled := true, mData := data }

/-- Constructor `QgsOptional( const T& data, bool enabled )`:
`mEnabled( enabled ), mData( data )`. -/
def ofDataEnabled (data : T) (enabled : Bool) : QgsOptional T :=
  { mEnabled := enabled, mData := data }

/-- Member `operator==`: `mEnabled == other.mEnabled && mData == other.mData`, the second
comparison being the payload's own `==`. -/
def operatorEq [BEq T] (self other : QgsOptional T) : Bool :=
  (self.mEnabled == other.mEnabled) && (self.mData == other.mData)

/-- Member `operator bool()`: `return mEnabled;`. -/
def operatorBool (self : QgsOptional T) : Bool := self.mEnabled

/-- Member `enabled()`: `return mEnabled;`. -/
def enabled (self : QgsOptional T) : Bool := self.mEnabled

/-- Member `setEnabled( bool enabled )`: `mEnabled = enabled;`. -/
def setEnabled (self : QgsOptional T) (enabled : Bool) : QgsOptional T :=
  { self with mEnabled := enabled }

/-- Member `data()`: `return mData;`. -/
def data (self : QgsOptional T) : T := self.mData

/-- Member `setData( const T& data )`: `mData = data;`. -/
def setData (self : QgsOptional T) (data : T) : QgsOptional T :=
  { self with mData := data }

end QgsOptional

/-- A payload type whose own `==` is not reflexive, after a C++ `double`: a number compares
equal to the same number, the not-a-number value compares unequal to everything, itself
included. -/
inductive Measurement where
  | number (n : Int)
  | nan

/-- The `==` of `Measurement`. -/
def Measurement.eqv : Measurement → Measurement → Bool
  | Measurement.number a, Measurement.number b => decide (a = b)
  | _, _ => false

instance : BEq Measurement := ⟨Measurement.eqv⟩

/-! ## qgsvisibilitypresetcollection.h -/

namespace QgsVisibilityPresetCollection

/-- The nested class `PresetRecord`: the ordered list of visible layers, the checked legend
symbols per layer, the current style per layer. -/
structure PresetRecord where
  mVisibleLayerIDs : QStringList
  mPerLayerCheckedLegendSymbols : QMap QString (QSet QString)
  mPerLayerCurrentStyle : QMap QString QString

/-- A default-constructed `PresetRecord`: an empty list and two empty maps. -/
instance : Inhabited PresetRecord :=
  ⟨{ mVisibleLayerIDs := [], mPerLayerCheckedLegendSymbols := QMap.empty,
     mPerLayerCurrentStyle := QMap.empty }⟩

namespace PresetRecord

/-- Member `operator==`:
`mVisibleLayerIDs.toSet() == other.mVisibleLayerIDs.toSet()
 && mPerLayerCheckedLegendSymbols == other.mPerLayerCheckedLegendSymbols
 && mPerLayerCurrentStyle == other.mPerLayerCurrentStyle`. -/
def operatorEq (self other : PresetRecord) : Bool :=
  decide (QStringList.toSet self.mVisibleLayerIDs = QStringList.toSet other.mVisibleLayerIDs)
    && QMap.operatorEq self.mPerLayerCheckedLegendSymbols other.mPerLayerCheckedLegendSymbols
    && QMap.operatorEq self.mPerLayerCurrentStyle other.mPerLayerCurrentStyle

/-- Member `operator!=`: `!( *this == other )`. -/
def operatorNe (self other : PresetRecord) : Bool := !(self.operatorEq other)

end PresetRecord

/-- The type `PresetRecordMap`: `QMap<QString, PresetRecord>`. -/
abbrev PresetRecordMap := QMap QString PresetRecord

end QgsVisibilityPresetCollection

/-- The class `QgsVisibilityPresetCollection`; its state is the member `mPresets`. -/
structure QgsVisibilityPresetCollection where
  mPresets : QgsVisibilityPresetCollection.PresetRecordMap

namespace QgsVisibilityPresetCollection

/-- Constructor `QgsVisibilityPresetCollection()`: no preset is stored. -/
def new : QgsVisibilityPresetCollection := { mPresets := QMap.empty }

/-- Member `presetState( name )`: `return mPresets[name];` in a `const` member function, that
is `QMap::operator[] const`. -/
def presetState (self : QgsVisibilityPresetCollection) (name : QString) : PresetRecord :=
  self.mPresets.value name

/-- The error kinds of section 7 of the specification. -/
inductive PresetError where
  | NotFound
  | MalformedDocument
  deriving DecidableEq

/-- How a call of `presetState` ends. The function returns a `PresetRecord` by value and has
no failing path, so it always ends with the record it returns. -/
def presetStateOutcome (self : QgsVisibilityPresetCollection) (name : QString) :
    Except PresetError PresetRecord :=
  Except.ok (self.presetState name)

/-- Modelled from the spec: the body of `insert( name, state )`, of which the header has the
declaration only. Section 4.2: "adds a new preset; if `name` already exists, behavior is the
same as `update` (the collection does not reject overwrites)". -/
def insert (self : QgsVisibilityPresetCollection) (name : QString) (state : PresetRecord) :
    QgsVisibilityPresetCollection :=
  { mPresets := self.mPresets.insert name state }

/-- Modelled from the spec: the body of `update( name, state )`, of which the header has the
declaration only. Section 4.2: "replaces the record at `name`, creating the entry if
absent". -/
def update (self : QgsVisibilityPresetCollection) (name : QString) (state : PresetRecord) :
    QgsVisibilityPresetCollection :=
  { mPresets := self.mPresets.insert name state }

/-- Modelled from the spec: the repair of one record for one removed layer. Section 4.3:
"remove each id in `removedIds` from `visibleLayerIds` (preserving relative order of
survivors); remove matching keys from `checkedLegendSymbols` and `currentStyle`". -/
def removeLayerFromRecord (rec : PresetRecord) (layerID : QString) : PresetRecord :=
  { mVisibleLayerIDs := QStringList.removeAll rec.mVisibleLayerIDs layerID
    mPerLayerCheckedLegendSymbols := rec.mPerLayerCheckedLegendSymbols.remove layerID
    mPerLayerCurrentStyle := rec.mPerLayerCurrentStyle.remove layerID }

/-- Modelled from the spec: the body of the slot `registryLayersRemoved( layerIDs )`, of which
the header has the declaration only. Section 4.3, Layer-removed: the repair above, "for every
record", for each of the removed ids. -/
def registryLayersRemoved (self : QgsVisibilityPresetCollection) (layerIDs : QStringList) :
    QgsVisibilityPresetCollection :=
  { mPresets := self.mPresets.mapValues (fun rec => layerIDs.foldl removeLayerFromRecord rec) }

/-- Modelled from the spec: the repair of one record for a renamed style. Section 4.3:
"for every record whose `currentStyle[layerId] == oldName`, replace the value with `newName`.
Records referencing a different style, or not referencing `layerId` at all, are untouched." -/
def renameStyleInRecord (layerID oldName newName : QString) (rec : PresetRecord) :
    PresetRecord :=
  if rec.mPerLayerCurrentStyle.find layerID = some oldName then
    { rec with mPerLayerCurrentStyle := rec.mPerLayerCurrentStyle.insert layerID newName }
  else rec

/-- Modelled from the spec: the body of the slot `layerStyleRenamed( oldName, newName )`, of
which the header has the declaration only. Section 4.3, Style-renamed: the repair above for
every record. The layer, which the slot learns from the sender of the signal, is the explicit
argument `layerID`, as in the specification's `StyleRenamed(layerId, oldName, newName)`. -/
def layerStyleRenamed (self : QgsVisibilityPresetCollection)
    (layerID oldName newName : QString) : QgsVisibilityPresetCollection :=
  { mPresets := self.mPresets.mapValues (renameStyleInRecord layerID oldName newName) }

/-- The subset relation of invariant I2 on one record: every key of the two maps is one of
the visible layers. -/
def KeysVisible (rec : PresetRecord) : Prop :=
  (∀ k ∈ rec.mPerLayerCheckedLegendSymbols.keys, k ∈ rec.mVisibleLayerIDs) ∧
  (∀ k ∈ rec.mPerLayerCurrentStyle.keys, k ∈ rec.mVisibleLayerIDs)

instance (rec : PresetRecord) : Decidable (KeysVisible rec) := by
  unfold KeysVisible
  exact inferInstance

/-- The state-changing operations named by the subset invariant of section 8: inserts,
updates and the two repairs. -/
inductive Operation where
  | insert (name : QString) (state : PresetRecord)
  | update (name : QString) (state : PresetRecord)
  | layersRemoved (layerIDs : QStringList)
  | styleRenamed (layerID oldName newName : QString)

/-- One operation applied to a collection. -/
def applyOperation (c : QgsVisibilityPresetCollection) : Operation →
    QgsVisibilityPresetCollection
  | Operation.insert name state => c.insert name state
  | Operation.update name state => c.update name state
  | Operation.layersRemoved layerIDs => c.registryLayersRemoved layerIDs
  | Operation.styleRenamed layerID oldName newName =>
    c.layerStyleRenamed layerID oldName newName

/-- A finite sequence of operations applied from left to right. -/
def applyOperations (c : QgsVisibilityPresetCollection) (ops : List Operation) :
    QgsVisibilityPresetCollection :=
  ops.foldl applyOperation c

/-- The record an operation commits, if it commits one. -/
def Operation.committed : Operation → Option PresetRecord
  | Operation.insert _ state => some state
  | Operation.update _ state => some state
  | Operation.layersRemoved _ => none
  | Operation.styleRenamed _ _ _ => none

/-- The record of the removal scenario of section 8: visible layers "L1" and "L2", the
style "dark" selected for "L2". -/
def scenarioBase : PresetRecord :=
  { mVisibleLayerIDs := ["L1", "L2"]
    mPerLayerCheckedLegendSymbols := QMap.empty
    mPerLayerCurrentStyle := QMap.insert QMap.empty "L2" "dark" }

/-- A record that names a style for the layer "L2" and lists no visible layer. -/
def styledNotVisible : PresetRecord :=
  { mVisibleLayerIDs := []
    mPerLayerCheckedLegendSymbols := QMap.empty
    mPerLayerCurrentStyle := QMap.insert QMap.empty "L2" "dark" }

/-! ### Persistence (section 4.4 of the specification)

The header declares `readXML` and `writeXML` only. The document is the structure section 4.4
describes: one container node, a node per preset carrying its name and the ordered
visible-layer references, and nested nodes, keyed by layer identifier, for the two maps. -/

/-- Modelled from the spec: a nested node of the checked-legend-symbol map, keyed by layer
identifier. Each symbol entry is either readable (`some`) or not (`none`, section 7: "an
unreadable single legend-symbol entry"). -/
structure CheckedSymbolsNode where
  layerId : QString
  symbols : List (Option QString)

/-- Modelled from the spec: a nested node of the current-style map, keyed by layer
identifier. -/
structure CurrentStyleNode where
  layerId : QString
  style : QString

/-- Modelled from the spec: a preset node, which "carries its name and an ordered list of
visible-layer references, plus nested nodes for the legend-checked-symbol map and the
current-style map". The name attribute may be missing (section 7); nested nodes that are
absent are empty lists. -/
structure PresetNode where
  name : Option QString
  visibleLayers : List QString
  checkedLegendSymbols : List CheckedSymbolsNode
  currentStyles : List CurrentStyleNode

/-- Modelled from the spec: the document, which "groups presets under a single container
node". -/
structure Document where
  presets : List PresetNode

/-- Modelled from the spec: the preset node written for one stored preset. -/
def presetNodeOf (name : QString) (rec : PresetRecord) : PresetNode :=
  { name := some name
    visibleLayers := rec.mVisibleLayerIDs
    checkedLegendSymbols := rec.mPerLayerCheckedLegendSymbols.entries.map
      (fun e => { layerId := e.1, symbols := (Finset.sort (fun a b => a ≤ b) e.2).map some })
    currentStyles := rec.mPerLayerCurrentStyle.entries.map
      (fun e => { layerId := e.1, style := e.2 }) }

/-- Modelled from the spec: the body of `writeXML( doc )` (`serialize` of section 4.4), of
which the header has the declaration only: a preset node per stored preset, in iteration
order, under the container node. -/
def writeXML (self : QgsVisibilityPresetCollection) : Document :=
  { presets := self.mPresets.entries.map (fun e => presetNodeOf e.1 e.2) }

/-- Modelled from the spec: the record read from one preset node. Unreadable symbol entries
are skipped; absent nested nodes give empty maps. -/
def recordOfNode (node : PresetNode) : PresetRecord :=
  { mVisibleLayerIDs := node.visibleLayers
    mPerLayerCheckedLegendSymbols := QMap.insertAll QMap.empty
      (node.checkedLegendSymbols.map
        (fun n => (n.layerId, List.toFinset (n.symbols.filterMap id))))
    mPerLayerCurrentStyle := QMap.insertAll QMap.empty
      (node.currentStyles.map (fun n => (n.layerId, n.style))) }

/-- Modelled from the spec: reading the preset nodes one after the other into a map; a preset
node without its name attribute makes the read fail with `MalformedDocument`. -/
def readPresetNodes : List PresetNode → PresetRecordMap → Except PresetError PresetRecordMap
  | [], acc => Except.ok acc
  | node :: rest, acc =>
    match node.name with
    | none => Except.error PresetError.MalformedDocument
    | some name => readPresetNodes rest (acc.insert name (recordOfNode node))

/-- Modelled from the spec: the body of `readXML( doc )` (`deserialize` of section 4.4), of
which the header has the declaration only: the collection read from the document, or
`MalformedDocument`. -/
def readXML (doc : Document) : Except PresetError QgsVisibilityPresetCollection :=
  match readPresetNodes doc.presets QMap.empty with
  | Except.ok m => Except.ok { mPresets := m }
  | Except.error err => Except.error err

end QgsVisibilityPresetCollection

/-! ## Facts about the Qt container models -/

namespace QMap

variable {K V W : Type} [LinearOrder K]

theorem eq_of_entries_eq {a b : QMap K V} (h : a.entries = b.entries) : a = b := by
  cases a
  cases b
  cases h
  rfl

theorem entriesEq_iff [DecidableEq V] (s t : List (K × V)) (h : s.length = t.length) :
    entriesEq s t = true ↔ s = t := by
  induction s generalizing t with
  | nil =>
    cases t with
    | nil => simp [entriesEq]
    | cons b t => simp at h
  | cons a s ih =>
    cases t with
    | nil => simp at h
    | cons b t =>
      have hlen : s.length = t.length := by simpa using h
      simp only [entriesEq]
      split_ifs with hc
      · constructor
        · intro hf
          cases hf
        · intro hab
          exfalso
          have h1 : a = b := (List.cons.inj hab).1
          subst h1
          rcases hc with hc | hc | hc
          · exact hc rfl
          · exact lt_irrefl _ hc
          · exact lt_irrefl _ hc
      · have hv : a.2 = b.2 := by
          by_contra hne
          exact hc (Or.inl hne)
        have hk : a.1 = b.1 :=
          le_antisymm (not_lt.1 fun hlt => hc (Or.inr (Or.inr hlt)))
            (not_lt.1 fun hlt => hc (Or.inr (Or.inl hlt)))
        have hab : a = b := Prod.ext hk hv
        rw [ih t hlen]
        constructor
        · intro hst
          rw [hab, hst]
        · intro hst
          exact (List.cons.inj hst).2

theorem map_operatorEq_iff_eq [DecidableEq V] (a b : QMap K V) :
    a.operatorEq b = true ↔ a = b := by
  unfold operatorEq size
  split_ifs with hsz
  · constructor
    · intro hf
      cases hf
    · intro hab
      exact absurd (by rw [hab]) hsz
  · rw [entriesEq_iff _ _ (not_not.1 hsz)]
    constructor
    · exact eq_of_entries_eq
    · intro hab
      rw [hab]

theorem findEntry_of_mem {l : List (K × V)} (hl : l.Pairwise (fun a b => a.1 < b.1))
    {k : K} {v : V} (h : (k, v) ∈ l) : findEntry k l = some v := by
  induction l with
  | nil => cases h
  | cons e t ih =>
    have he := (List.pairwise_cons.1 hl).1
    have ht := (List.pairwise_cons.1 hl).2
    simp only [findEntry]
    rcases List.mem_cons.1 h with h | h
    · subst h
      simp
    · have hlt : e.1 < k := he _ h
      rw [if_neg (ne_of_lt hlt)]
      exact ih ht h

theorem mem_of_findEntry {l : List (K × V)} {k : K} {v : V} (h : findEntry k l = some v) :
    (k, v) ∈ l := by
  induction l with
  | nil => cases h
  | cons e t ih =>
    simp only [findEntry] at h
    split_ifs at h with hk
    · cases h
      subst hk
      exact List.mem_cons_self _ _
    · exact List.mem_cons_of_mem _ (ih h)

theorem findEntry_eq_none_iff {l : List (K × V)} {k : K} :
    findEntry k l = none ↔ k ∉ l.map Prod.fst := by
  induction l with
  | nil => simp [findEntry]
  | cons e t ih =>
    simp only [findEntry, List.map_cons, List.mem_cons, not_or]
    split_ifs with hk
    · simp [hk]
    · rw [ih]
      constructor
      · intro h
        exact ⟨fun h2 => hk h2.symm, h⟩
      · intro h
        exact h.2

theorem find_eq_none_iff {m : QMap K V} {k : K} : m.find k = none ↔ k ∉ m.keys :=
  findEntry_eq_none_iff

theorem find_of_mem {m : QMap K V} {k : K} {v : V} (h : (k, v) ∈ m.entries) :
    m.find k = some v :=
  findEntry_of_mem m.sorted h

theorem findEntry_insertEntry (key : K) (value : V) (l : List (K × V)) (k : K) :
    findEntry k (insertEntry key value l) = if k = key then some value else findEntry k l := by
  induction l with
  | nil =>
    by_cases hk : k = key
    · subst hk
      simp [insertEntry, findEntry]
    · have hk2 : ¬ key = k := fun h => hk h.symm
      simp [insertEntry, findEntry, hk, hk2]
  | cons e t ih =>
    by_cases h1 : key < e.1
    · rw [insertEntry, if_pos h1]
      by_cases hk : k = key
      · subst hk
        simp [findEntry]
      · have hk2 : ¬ key = k := fun h => hk h.symm
        simp [findEntry, hk, hk2]
    · by_cases h2 : e.1 < key
      · rw [insertEntry, if_neg h1, if_pos h2]
        by_cases hk : k = key
        · subst hk
          have h3 : ¬ e.1 = k := ne_of_lt h2
          simp [findEntry, ih, h3]
        · simp [findEntry, ih, hk]
      · rw [insertEntry, if_neg h1, if_neg h2]
        have hke : key = e.1 := le_antisymm (not_lt.1 h2) (not_lt.1 h1)
        by_cases hk : k = key
        · subst hk
          simp [findEntry]
        · have hk2 : ¬ key = k := fun h => hk h.symm
          have hk3 : ¬ e.1 = k := fun h => hk2 (hke.trans h)
          simp [findEntry, hk, hk2, hk3]

theorem find_insert (m : QMap K V) (key : K) (value : V) (k : K) :
    (m.insert key value).find k = if k = key then some value else m.find k :=
  findEntry_insertEntry key value m.entries k

theorem findEntry_filter (p : K → Bool) (l : List (K × V)) (k : K) :
    findEntry k (l.filter (fun e => p e.1)) = if p k = true then findEntry k l else none := by
  induction l with
  | nil =>
    simp [findEntry]
  | cons e t ih =>
    by_cases he : p e.1 = true
    · have hf : List.filter (fun x : K × V => p x.1) (e :: t) =
          e :: List.filter (fun x : K × V => p x.1) t := by
        simp [List.filter_cons, he]
      rw [hf]
      simp only [findEntry, ih]
      by_cases hk : e.1 = k
      · rw [if_pos hk, if_pos hk, if_pos (hk ▸ he)]
      · rw [if_neg hk, if_neg hk]
    · have hf : List.filter (fun x : K × V => p x.1) (e :: t) =
          List.filter (fun x : K × V => p x.1) t := by
        simp [List.filter_cons, he]
      rw [hf, ih]
      by_cases hk : e.1 = k
      · rw [if_neg (hk ▸ he), if_neg (hk ▸ he)]
      · simp only [findEntry]
        rw [if_neg hk]

theorem findEntry_map (f : V → W) (l : List (K × V)) (k : K) :
    findEntry k (l.map (fun e => (e.1, f e.2))) = (findEntry k l).map f := by
  induction l with
  | nil => rfl
  | cons e t ih =>
    simp only [List.map_cons, findEntry, ih]
    split_ifs <;> rfl

theorem find_mapValues (f : V → W) (m : QMap K V) (k : K) :
    (m.mapValues f).find k = (m.find k).map f :=
  findEntry_map f m.entries k

theorem keys_mapValues (f : V → W) (m : QMap K V) : (m.mapValues f).keys = m.keys := by
  simp [mapValues, keys, List.map_map, Function.comp_def]

theorem keys_insertEntry_of_mem (key : K) (value : V) {l : List (K × V)}
    (hl : l.Pairwise (fun a b => a.1 < b.1)) (h : key ∈ l.map Prod.fst) :
    (insertEntry key value l).map Prod.fst = l.map Prod.fst := by
  induction l with
  | nil => simp at h
  | cons e t ih =>
    have he := (List.pairwise_cons.1 hl).1
    have ht := (List.pairwise_cons.1 hl).2
    simp only [insertEntry]
    split_ifs with h1 h2
    · exfalso
      rcases List.mem_cons.1 h with h | h
      · exact ne_of_lt h1 h
      · obtain ⟨x, hx, hxk⟩ := List.mem_map.1 h
        have := he x hx
        rw [hxk] at this
        exact lt_asymm h1 this
    · have hmem : key ∈ t.map Prod.fst := by
        rcases List.mem_cons.1 h with h | h
        · exact absurd h.symm (ne_of_lt h2)
        · exact h
      simp [ih ht hmem]
    · have hk : key = e.1 := le_antisymm (not_lt.1 h2) (not_lt.1 h1)
      simp [hk]

theorem keys_insert_of_find (m : QMap K V) (key : K) (value : V) {old : V}
    (h : m.find key = some old) : (m.insert key value).keys = m.keys := by
  refine keys_insertEntry_of_mem key value m.sorted ?_
  by_contra hn
  have := findEntry_eq_none_iff.2 hn
  unfold find at h
  rw [this] at h
  cases h

theorem insertEntry_of_all_lt (key : K) (value : V) (acc : List (K × V))
    (h : ∀ e ∈ acc, e.1 < key) : insertEntry key value acc = acc ++ [(key, value)] := by
  induction acc with
  | nil => rfl
  | cons e t ih =>
    have he : e.1 < key := h e (List.mem_cons_self _ _)
    rw [insertEntry, if_neg (lt_asymm he), if_pos he,
      ih (fun x hx => h x (List.mem_cons_of_mem _ hx))]
    rfl

theorem foldl_insertEntry_of_sorted (l acc : List (K × V))
    (h : (acc ++ l).Pairwise (fun a b => a.1 < b.1)) :
    l.foldl (fun a e => insertEntry e.1 e.2 a) acc = acc ++ l := by
  induction l generalizing acc with
  | nil => simp
  | cons e t ih =>
    have hlt : ∀ x ∈ acc, x.1 < e.1 := fun x hx =>
      (List.pairwise_append.1 h).2.2 x hx e (List.mem_cons_self _ _)
    rw [List.foldl_cons, insertEntry_of_all_lt e.1 e.2 acc hlt]
    have h2 : (acc ++ [(e.1, e.2)] ++ t).Pairwise (fun a b => a.1 < b.1) := by
      simpa using h
    rw [ih _ h2]
    simp

theorem entries_insertAll (m : QMap K V) (items : List (K × V)) :
    (m.insertAll items).entries =
      items.foldl (fun a e => insertEntry e.1 e.2 a) m.entries := by
  unfold insertAll
  induction items generalizing m with
  | nil => rfl
  | cons e t ih =>
    rw [List.foldl_cons, List.foldl_cons, ih]
    rfl

theorem insertAll_entries (m : QMap K V) : (empty : QMap K V).insertAll m.entries = m := by
  apply eq_of_entries_eq
  rw [entries_insertAll]
  have h := foldl_insertEntry_of_sorted m.entries [] (by simpa using m.sorted)
  simpa [empty] using h

end QMap

/-! ## Properties of QgsOptional -/

namespace QgsOptional

variable {T : Type}

/-- C7, counterexample: the enabled optional holding the not-a-number payload, disabled and
re-enabled, is the same optional again (same flag, same payload), yet `==` between it and the
original is false, because the payload's own `==` is false on that payload. -/
theorem reenabled_nan_not_operatorEq :
    (⟨true, Measurement.nan⟩ : QgsOptional Measurement).enabled = true ∧
    ((⟨true, Measurement.nan⟩ : QgsOptional Measurement).setEnabled false).setEnabled true
      = ⟨true, Measurement.nan⟩ ∧
    (((⟨true, Measurement.nan⟩ : QgsOptional Measurement).setEnabled false).setEnabled
      true).operatorEq ⟨true, Measurement.nan⟩ = false :=
  ⟨rfl, rfl, rfl⟩

/-- C7, amended: `setEnabled(b)` changes only the enabled flag, so `data()` is the same before
and after; disabling and re-enabling an enabled optional gives back the very same optional
(same flag, same payload), which compares with the original as the original compares with
itself, hence is `==` to it whenever the payload is `==` to itself. -/
theorem setEnabled_keeps_data [BEq T] (o : QgsOptional T) (b : Bool) :
    (o.setEnabled b).data = o.data ∧
    (o.setEnabled b).enabled = b ∧
    (o.enabled = true → (o.setEnabled false).setEnabled true = o) ∧
    (o.enabled = true →
      ((o.setEnabled false).setEnabled true).operatorEq o = o.operatorEq o) ∧
    (o.enabled = true → (o.data == o.data) = true →
      ((o.setEnabled false).setEnabled true).operatorEq o = true) := by
  cases o with
  | mk en d =>
    refine ⟨rfl, rfl, ?_, ?_, ?_⟩
    · intro h
      simp only [enabled] at h
      subst h
      rfl
    · intro h
      simp only [enabled] at h
      subst h
      rfl
    · intro h hd
      simp only [enabled] at h
      simp only [data] at hd
      subst h
      simp [setEnabled, operatorEq, hd]

/-- Instance of the amended C7 on the enabled optional holding the payload 7. -/
theorem setEnabled_keeps_data_witness :
    (((⟨true, 7⟩ : QgsOptional Nat).setEnabled false).data = 7) ∧
    (((⟨true, 7⟩ : QgsOptional Nat).setEnabled false).setEnabled true).operatorEq ⟨true, 7⟩
      = true :=
  ⟨(setEnabled_keeps_data (⟨true, 7⟩ : QgsOptional Nat) false).1,
   (setEnabled_keeps_data (⟨true, 7⟩ : QgsOptional Nat) false).2.2.2.2 rfl (by decide)⟩

/-- C8: `a == b` holds exactly when the enabled flags agree and the payloads are equal
under the payload's own `==`; two disabled optionals with different payloads are not equal, and
an enabled and a disabled optional are not equal whatever they hold. -/
theorem optional_operatorEq_iff [BEq T] (a b : QgsOptional T) :
    (a.operatorEq b = true ↔ a.enabled = b.enabled ∧ (a.data == b.data) = true) ∧
    (a.enabled = false → b.enabled = false → (a.data == b.data) = false →
      a.operatorEq b = false) ∧
    (a.enabled = true → b.enabled = false → a.operatorEq b = false) := by
  cases a with
  | mk ea da =>
    cases b with
    | mk eb db =>
      simp only [operatorEq, enabled, data]
      refine ⟨?_, ?_, ?_⟩
      · simp
      · intro h1 h2 h3
        simp [h3]
      · intro h1 h2
        simp [h1, h2]

/-- Instance of C8: two disabled optionals holding 1 and 2, and an enabled and a disabled one
both holding 1. -/
theorem optional_operatorEq_iff_witness :
    (⟨false, 1⟩ : QgsOptional Nat).operatorEq ⟨false, 2⟩ = false ∧
    (⟨true, 1⟩ : QgsOptional Nat).operatorEq ⟨false, 1⟩ = false :=
  ⟨(optional_operatorEq_iff (⟨false, 1⟩ : QgsOptional Nat) ⟨false, 2⟩).2.1 rfl rfl (by decide),
   (optional_operatorEq_iff (⟨true, 1⟩ : QgsOptional Nat) ⟨false, 1⟩).2.2 rfl rfl⟩

/-- C9: constructor postconditions. The default constructor gives a disabled optional, the
one-argument constructor an enabled optional holding its argument, the two-argument constructor
an optional with the given flag and payload; `operator bool` always agrees with `enabled()`. -/
theorem constructor_postconditions [Inhabited T] (d : T) (e : Bool) :
    (mkDefault : QgsOptional T).enabled = false ∧
    ((ofData d).enabled = true ∧ (ofData d).data = d) ∧
    ((ofDataEnabled d e).enabled = e ∧ (ofDataEnabled d e).data = d) ∧
    ((mkDefault : QgsOptional T).operatorBool = (mkDefault : QgsOptional T).enabled ∧
     (ofData d).operatorBool = (ofData d).enabled ∧
     (ofDataEnabled d e).operatorBool = (ofDataEnabled d e).enabled) ∧
    (∀ o : QgsOptional T, o.operatorBool = o.enabled) :=
  ⟨rfl, ⟨rfl, rfl⟩, ⟨rfl, rfl⟩, ⟨rfl, rfl, rfl⟩, fun _ => rfl⟩

end QgsOptional

/-! ## Properties of QgsVisibilityPresetCollection -/

namespace QgsVisibilityPresetCollection

/-- C1: `a == b` holds exactly when the visible-layer lists of `a` and `b` have the same
elements (whatever the order and the repetitions), the checked-legend-symbol maps are equal
and the current-style maps are equal. -/
theorem presetRecord_operatorEq_iff (a b : PresetRecord) :
    a.operatorEq b = true ↔
      (∀ id : QString, id ∈ a.mVisibleLayerIDs ↔ id ∈ b.mVisibleLayerIDs) ∧
      a.mPerLayerCheckedLegendSymbols = b.mPerLayerCheckedLegendSymbols ∧
      a.mPerLayerCurrentStyle = b.mPerLayerCurrentStyle := by
  unfold PresetRecord.operatorEq QStringList.toSet
  rw [Bool.and_eq_true, Bool.and_eq_true, decide_eq_true_eq, QMap.map_operatorEq_iff_eq,
    QMap.map_operatorEq_iff_eq, and_assoc, Finset.ext_iff]
  simp only [List.mem_toFinset]

/-- C2, counterexample: in the collection without presets the name "Base" is not a key, yet
`presetState` ends with a record (the default-constructed one), not with `NotFound`. -/
theorem presetState_absent_not_NotFound :
    "Base" ∉ new.mPresets.keys ∧
    presetStateOutcome new "Base" = Except.ok default ∧
    presetStateOutcome new "Base" ≠ Except.error PresetError.NotFound := by
  refine ⟨?_, rfl, ?_⟩
  · simp [new, QMap.keys, QMap.empty]
  · intro h
    cases h

/-- C2, amended: `presetState(name)` never fails. For a name that is not a key it returns
the default-constructed record (empty list, empty maps); for a name stored with record `r` it
returns `r`. -/
theorem presetState_total (c : QgsVisibilityPresetCollection) (name : QString) :
    presetStateOutcome c name = Except.ok (c.presetState name) ∧
    (name ∉ c.mPresets.keys → c.presetState name = default) ∧
    (∀ r : PresetRecord, (name, r) ∈ c.mPresets.entries → c.presetState name = r) := by
  refine ⟨rfl, ?_, ?_⟩
  · intro h
    unfold presetState QMap.value
    rw [QMap.find_eq_none_iff.2 h]
    rfl
  · intro r h
    unfold presetState QMap.value
    rw [QMap.find_of_mem h]
    rfl

/-- Instance of the amended C2: an absent name in the empty collection, and the name "Base"
stored with a record showing the layer "L1". -/
theorem presetState_total_witness :
    new.presetState "Base" = default ∧
    (new.insert "Base" { (default : PresetRecord) with mVisibleLayerIDs := ["L1"] }).presetState
      "Base" = { (default : PresetRecord) with mVisibleLayerIDs := ["L1"] } :=
  ⟨(presetState_total new "Base").2.1 (by simp [new, QMap.keys, QMap.empty]),
   (presetState_total
      (new.insert "Base" { (default : PresetRecord) with mVisibleLayerIDs := ["L1"] })
      "Base").2.2 _ (by simp [new, insert, QMap.insert, QMap.empty, QMap.insertEntry])⟩

theorem foldl_removeLayerFromRecord (R : QStringList) (rec : PresetRecord) :
    (R.foldl removeLayerFromRecord rec).mVisibleLayerIDs =
        rec.mVisibleLayerIDs.filter (fun x => decide (x ∉ R)) ∧
    (R.foldl removeLayerFromRecord rec).mPerLayerCheckedLegendSymbols.entries =
        rec.mPerLayerCheckedLegendSymbols.entries.filter (fun e => decide (e.1 ∉ R)) ∧
    (R.foldl removeLayerFromRecord rec).mPerLayerCurrentStyle.entries =
        rec.mPerLayerCurrentStyle.entries.filter (fun e => decide (e.1 ∉ R)) := by
  induction R generalizing rec with
  | nil => simp
  | cons id rest ih =>
    rw [List.foldl_cons]
    obtain ⟨h1, h2, h3⟩ := ih (removeLayerFromRecord rec id)
    rw [h1, h2, h3]
    simp only [removeLayerFromRecord, QStringList.removeAll, QMap.remove, List.filter_filter]
    refine ⟨List.filter_congr ?_, List.filter_congr ?_, List.filter_congr ?_⟩
    · intro x _
      simp [List.mem_cons, not_or, Bool.and_comm]
    · intro x _
      simp [List.mem_cons, not_or, Bool.and_comm]
    · intro x _
      simp [List.mem_cons, not_or, Bool.and_comm]

/-- C3: after `registryLayersRemoved(R)` the preset names are the same, and every stored
record `P` has become a record whose visible-layer list is that of `P` without the ids in `R`
(the others in their order), and whose two maps are those of `P` without the keys in `R` (every
other key with the value it had). In the scenario, "Base" with layers "L1", "L2" and the style
"dark" for "L2" is left with the layer "L1" and no style after the removal of "L2". -/
theorem registryLayersRemoved_repairs (c : QgsVisibilityPresetCollection) (R : QStringList) :
    (c.registryLayersRemoved R).mPresets.keys = c.mPresets.keys ∧
    (∀ name : QString, c.mPresets.find name = none →
      (c.registryLayersRemoved R).mPresets.find name = none) ∧
    (∀ (name : QString) (P : PresetRecord), c.mPresets.find name = some P →
      ∃ P' : PresetRecord, (c.registryLayersRemoved R).mPresets.find name = some P' ∧
        P'.mVisibleLayerIDs = P.mVisibleLayerIDs.filter (fun x => decide (x ∉ R)) ∧
        (∀ k : QString, P'.mPerLayerCheckedLegendSymbols.find k =
          if k ∈ R then none else P.mPerLayerCheckedLegendSymbols.find k) ∧
        (∀ k : QString, P'.mPerLayerCurrentStyle.find k =
          if k ∈ R then none else P.mPerLayerCurrentStyle.find k)) ∧
    ((new.insert "Base" scenarioBase).registryLayersRemoved ["L2"]).mPresets.entries =
      [("Base", { mVisibleLayerIDs := ["L1"], mPerLayerCheckedLegendSymbols := QMap.empty,
                  mPerLayerCurrentStyle := QMap.empty })] := by
  refine ⟨QMap.keys_mapValues _ _, ?_, ?_, ?_⟩
  · intro name h
    unfold registryLayersRemoved
    rw [QMap.find_mapValues, h]
    rfl
  · intro name P h
    refine ⟨R.foldl removeLayerFromRecord P, ?_, ?_, ?_, ?_⟩
    · unfold registryLayersRemoved
      rw [QMap.find_mapValues, h]
      rfl
    · exact (foldl_removeLayerFromRecord R P).1
    · intro k
      unfold QMap.find
      rw [(foldl_removeLayerFromRecord R P).2.1,
        QMap.findEntry_filter (fun x => decide (x ∉ R))]
      by_cases hk : k ∈ R <;> simp [hk]
    · intro k
      unfold QMap.find
      rw [(foldl_removeLayerFromRecord R P).2.2,
        QMap.findEntry_filter (fun x => decide (x ∉ R))]
      by_cases hk : k ∈ R <;> simp [hk]
  · simp [registryLayersRemoved, new, insert, scenarioBase, QMap.mapValues, QMap.insert,
      QMap.empty, QMap.insertEntry, removeLayerFromRecord, QStringList.removeAll, QMap.remove]

/-- Instance of C3 on the scenario: the record stored under "Base" after the removal of "L2"
has the visible layers of `scenarioBase` without "L2". -/
theorem registryLayersRemoved_repairs_witness :
    ∃ P' : PresetRecord,
      ((new.insert "Base" scenarioBase).registryLayersRemoved ["L2"]).mPresets.find "Base"
        = some P' ∧
      P'.mVisibleLayerIDs = scenarioBase.mVisibleLayerIDs.filter (fun x => decide (x ∉ ["L2"])) ∧
      (∀ k : QString, P'.mPerLayerCheckedLegendSymbols.find k =
        if k ∈ ["L2"] then none else scenarioBase.mPerLayerCheckedLegendSymbols.find k) ∧
      (∀ k : QString, P'.mPerLayerCurrentStyle.find k =
        if k ∈ ["L2"] then none else scenarioBase.mPerLayerCurrentStyle.find k) :=
  (registryLayersRemoved_repairs (new.insert "Base" scenarioBase) ["L2"]).2.2.1 "Base"
    scenarioBase
    (by simp [new, insert, QMap.find, QMap.insert, QMap.empty, QMap.insertEntry,
      QMap.findEntry])

/-- C4: after `StyleRenamed(L, old, new)` the preset names are the same; every stored
record whose current style for `L` is `old` has `new` for `L` and is otherwise as before (same
visible layers, same checked legend symbols, same style for every other layer, same style
keys), whichever presets these are; every record with another style for `L`, or none, is
exactly as it was. -/
theorem layerStyleRenamed_repairs (c : QgsVisibilityPresetCollection)
    (L old new : QString) :
    (c.layerStyleRenamed L old new).mPresets.keys = c.mPresets.keys ∧
    (∀ (name : QString) (P : PresetRecord), c.mPresets.find name = some P →
      (P.mPerLayerCurrentStyle.find L = some old →
        ∃ P' : PresetRecord, (c.layerStyleRenamed L old new).mPresets.find name = some P' ∧
          P'.mPerLayerCurrentStyle.find L = some new ∧
          P'.mVisibleLayerIDs = P.mVisibleLayerIDs ∧
          P'.mPerLayerCheckedLegendSymbols = P.mPerLayerCheckedLegendSymbols ∧
          (∀ k : QString, k ≠ L →
            P'.mPerLayerCurrentStyle.find k = P.mPerLayerCurrentStyle.find k) ∧
          P'.mPerLayerCurrentStyle.keys = P.mPerLayerCurrentStyle.keys) ∧
      (P.mPerLayerCurrentStyle.find L ≠ some old →
        (c.layerStyleRenamed L old new).mPresets.find name = some P)) := by
  refine ⟨QMap.keys_mapValues _ _, ?_⟩
  intro name P h
  have hfind : (c.layerStyleRenamed L old new).mPresets.find name =
      some (renameStyleInRecord L old new P) := by
    unfold layerStyleRenamed
    rw [QMap.find_mapValues, h]
    rfl
  constructor
  · intro hold
    refine ⟨renameStyleInRecord L old new P, hfind, ?_, ?_, ?_, ?_, ?_⟩
    · unfold renameStyleInRecord
      rw [if_pos hold]
      show (P.mPerLayerCurrentStyle.insert L new).find L = some new
      rw [QMap.find_insert, if_pos rfl]
    · unfold renameStyleInRecord
      rw [if_pos hold]
    · unfold renameStyleInRecord
      rw [if_pos hold]
    · intro k hk
      unfold renameStyleInRecord
      rw [if_pos hold]
      show (P.mPerLayerCurrentStyle.insert L new).find k = P.mPerLayerCurrentStyle.find k
      rw [QMap.find_insert, if_neg hk]
    · unfold renameStyleInRecord
      rw [if_pos hold]
      exact QMap.keys_insert_of_find _ L new hold
  · intro hne
    rw [hfind]
    unfold renameStyleInRecord
    rw [if_neg hne]

/-- Instance of C4: "Base" with the style "dark" for "L2", after the renaming of the style
"dark" of "L2" into "night". -/
theorem layerStyleRenamed_repairs_witness :
    ∃ P' : PresetRecord,
      ((new.insert "Base" scenarioBase).layerStyleRenamed "L2" "dark" "night").mPresets.find
        "Base" = some P' ∧
      P'.mPerLayerCurrentStyle.find "L2" = some "night" ∧
      P'.mVisibleLayerIDs = scenarioBase.mVisibleLayerIDs ∧
      P'.mPerLayerCheckedLegendSymbols = scenarioBase.mPerLayerCheckedLegendSymbols ∧
      (∀ k : QString, k ≠ "L2" →
        P'.mPerLayerCurrentStyle.find k = scenarioBase.mPerLayerCurrentStyle.find k) ∧
      P'.mPerLayerCurrentStyle.keys = scenarioBase.mPerLayerCurrentStyle.keys :=
  ((layerStyleRenamed_repairs (new.insert "Base" scenarioBase) "L2" "dark" "night").2 "Base"
    scenarioBase
    (by simp [new, insert, QMap.find, QMap.insert, QMap.empty, QMap.insertEntry,
      QMap.findEntry])).1
    (by simp [scenarioBase, QMap.find, QMap.insert, QMap.empty, QMap.insertEntry,
      QMap.findEntry])

theorem keysVisible_removeLayers (R : QStringList) {rec : PresetRecord}
    (h : KeysVisible rec) : KeysVisible (R.foldl removeLayerFromRecord rec) := by
  obtain ⟨h1, h2, h3⟩ := foldl_removeLayerFromRecord R rec
  unfold KeysVisible QMap.keys
  rw [h1, h2, h3]
  constructor
  · intro k hk
    obtain ⟨e, he, hek⟩ := List.mem_map.1 hk
    rw [List.mem_filter] at he ⊢
    subst hek
    exact ⟨h.1 _ (List.mem_map_of_mem _ he.1), he.2⟩
  · intro k hk
    obtain ⟨e, he, hek⟩ := List.mem_map.1 hk
    rw [List.mem_filter] at he ⊢
    subst hek
    exact ⟨h.2 _ (List.mem_map_of_mem _ he.1), he.2⟩

theorem keysVisible_renameStyle (L old new : QString) {rec : PresetRecord}
    (h : KeysVisible rec) : KeysVisible (renameStyleInRecord L old new rec) := by
  unfold renameStyleInRecord
  split_ifs with hold
  · refine ⟨h.1, ?_⟩
    show ∀ k ∈ (rec.mPerLayerCurrentStyle.insert L new).keys, k ∈ rec.mVisibleLayerIDs
    rw [QMap.keys_insert_of_find _ L new hold]
    exact h.2
  · exact h

theorem keysVisible_applyOperation {c : QgsVisibilityPresetCollection} {op : Operation}
    (hc : ∀ e ∈ c.mPresets.entries, KeysVisible e.2)
    (hop : ∀ r : PresetRecord, op.committed = some r → KeysVisible r) :
    ∀ e ∈ (applyOperation c op).mPresets.entries, KeysVisible e.2 := by
  intro e he
  cases op with
  | insert name state =>
    rcases QMap.mem_insertEntry he with h | h
    · rw [h]
      exact hop state rfl
    · exact hc e h
  | update name state =>
    rcases QMap.mem_insertEntry he with h | h
    · rw [h]
      exact hop state rfl
    · exact hc e h
  | layersRemoved layerIDs =>
    obtain ⟨x, hx, hxe⟩ := List.mem_map.1 he
    subst hxe
    exact keysVisible_removeLayers layerIDs (hc x hx)
  | styleRenamed layerID oldName newName =>
    obtain ⟨x, hx, hxe⟩ := List.mem_map.1 he
    subst hxe
    exact keysVisible_renameStyle layerID oldName newName (hc x hx)

theorem keysVisible_applyOperations (ops : List Operation) (c : QgsVisibilityPresetCollection)
    (hc : ∀ e ∈ c.mPresets.entries, KeysVisible e.2)
    (hops : ∀ op ∈ ops, ∀ r : PresetRecord, op.committed = some r → KeysVisible r) :
    ∀ e ∈ (applyOperations c ops).mPresets.entries, KeysVisible e.2 := by
  induction ops generalizing c with
  | nil => exact hc
  | cons op rest ih =>
    unfold applyOperations
    rw [List.foldl_cons]
    exact ih (applyOperation c op)
      (keysVisible_applyOperation hc (hops op (List.mem_cons_self _ _)))
      (fun o ho => hops o (List.mem_cons_of_mem _ ho))

/-- C6, counterexample: a single insert into the empty collection stores, under "Base", a
record that has the style key "L2" although "L2" is not among its visible layers. -/
theorem insert_breaks_subset :
    (applyOperations new [Operation.insert "Base" styledNotVisible]).mPresets.find "Base"
      = some styledNotVisible ∧
    "L2" ∈ styledNotVisible.mPerLayerCurrentStyle.keys ∧
    "L2" ∉ styledNotVisible.mVisibleLayerIDs ∧
    ¬ KeysVisible styledNotVisible := by
  refine ⟨?_, ?_, ?_, ?_⟩
  · simp [applyOperations, applyOperation, new, insert, QMap.find, QMap.insert, QMap.empty,
      QMap.insertEntry, QMap.findEntry]
  · simp [styledNotVisible, QMap.keys, QMap.insert, QMap.empty, QMap.insertEntry]
  · simp [styledNotVisible]
  · intro h
    have := h.2 "L2" (by simp [styledNotVisible, QMap.keys, QMap.insert, QMap.empty,
      QMap.insertEntry])
    simp [styledNotVisible] at this

/-- C6, amended: starting from the empty collection, after any finite sequence of insert,
update, layer-removed and style-renamed operations in which every inserted or updated record
has the keys of its two maps among its own visible layers, every stored record has the keys of
its two maps among its visible layers. -/
theorem subset_invariant (ops : List Operation)
    (hops : ∀ op ∈ ops, ∀ r : PresetRecord, op.committed = some r → KeysVisible r)
    (name : QString) (r : PresetRecord)
    (hr : (applyOperations new ops).mPresets.find name = some r) :
    (∀ k ∈ r.mPerLayerCheckedLegendSymbols.keys, k ∈ r.mVisibleLayerIDs) ∧
    (∀ k ∈ r.mPerLayerCurrentStyle.keys, k ∈ r.mVisibleLayerIDs) :=
  keysVisible_applyOperations ops new (fun e he => by cases he) hops (name, r)
    (QMap.mem_of_findEntry hr)

/-- Instance of the amended C6: "Base" is inserted with the scenario record, whose only map
key "L2" is a visible layer, then "L2" is removed; the record left under "Base" has its keys
among its visible layers. -/
theorem subset_invariant_witness :
    (∀ k ∈ (QMap.empty : QMap QString (QSet QString)).keys, k ∈ ["L1"]) ∧
    (∀ k ∈ (QMap.empty : QMap QString QString).keys, k ∈ ["L1"]) :=
  subset_invariant
    [Operation.insert "Base" scenarioBase, Operation.layersRemoved ["L2"]]
    (by
      intro op hop r hr
      rcases List.mem_cons.1 hop with h | h
      · subst h
        cases hr
        constructor
        · intro k hk
          simp [scenarioBase, QMap.keys, QMap.empty] at hk
        · intro k hk
          simp [scenarioBase, QMap.keys, QMap.empty, QMap.insert, QMap.insertEntry] at hk
          simp [scenarioBase, hk]
      · rcases List.mem_cons.1 h with h | h
        · subst h
          cases hr
        · cases h)
    "Base"
    { mVisibleLayerIDs := ["L1"], mPerLayerCheckedLegendSymbols := QMap.empty,
      mPerLayerCurrentStyle := QMap.empty }
    (by simp [applyOperations, applyOperation, registryLayersRemoved, new, insert, scenarioBase,
      QMap.find, QMap.findEntry, QMap.mapValues, QMap.insert, QMap.empty, QMap.insertEntry,
      removeLayerFromRecord, QStringList.removeAll, QMap.remove])

theorem recordOfNode_presetNodeOf (name : QString) (rec : PresetRecord) :
    recordOfNode (presetNodeOf name rec) = rec := by
  have hsym : (rec.mPerLayerCheckedLegendSymbols.entries.map
        (fun e => ({ layerId := e.1,
                     symbols := (Finset.sort (fun a b => a ≤ b) e.2).map some } :
                   CheckedSymbolsNode))).map
        (fun n => (n.layerId, List.toFinset (n.symbols.filterMap id)))
      = rec.mPerLayerCheckedLegendSymbols.entries := by
    rw [List.map_map]
    conv_rhs => rw [← List.map_id rec.mPerLayerCheckedLegendSymbols.entries]
    refine List.map_congr_left ?_
    intro e _
    simp [List.filterMap_map, Finset.sort_toFinset]
  have hstyle : (rec.mPerLayerCurrentStyle.entries.map
        (fun e => ({ layerId := e.1, style := e.2 } : CurrentStyleNode))).map
        (fun n => (n.layerId, n.style))
      = rec.mPerLayerCurrentStyle.entries := by
    rw [List.map_map]
    conv_rhs => rw [← List.map_id rec.mPerLayerCurrentStyle.entries]
    refine List.map_congr_left ?_
    intro e _
    rfl
  unfold recordOfNode presetNodeOf
  simp only [hsym, hstyle, QMap.insertAll_entries]

theorem readPresetNodes_written (l : List (QString × PresetRecord)) (acc : PresetRecordMap) :
    readPresetNodes (l.map (fun e => presetNodeOf e.1 e.2)) acc
      = Except.ok (acc.insertAll l) := by
  induction l generalizing acc with
  | nil => rfl
  | cons e t ih =>
    rw [List.map_cons, readPresetNodes]
    simp only [presetNodeOf]
    have h := ih (acc.insert e.1 e.2)
    have hrec := recordOfNode_presetNodeOf e.1 e.2
    simp only [presetNodeOf] at hrec h
    rw [hrec, h]
    rfl

/-- C5: reading back the document written from a collection `C` succeeds and gives a
collection equal to `C`: the same preset names in the same iteration order, and under each
name a record with the same visible-layer list in the same order, the same
checked-legend-symbol map and the same current-style map. -/
theorem readXML_writeXML (c : QgsVisibilityPresetCollection) :
    ∃ c' : QgsVisibilityPresetCollection,
      readXML (writeXML c) = Except.ok c' ∧
      c' = c ∧
      c'.mPresets.keys = c.mPresets.keys ∧
      ∀ name : QString,
        c'.mPresets.find name = c.mPresets.find name ∧
        (c'.presetState name).mVisibleLayerIDs = (c.presetState name).mVisibleLayerIDs ∧
        (c'.presetState name).mPerLayerCheckedLegendSymbols =
          (c.presetState name).mPerLayerCheckedLegendSymbols ∧
        (c'.presetState name).mPerLayerCurrentStyle =
          (c.presetState name).mPerLayerCurrentStyle := by
  have hrt : readXML (writeXML c) = Except.ok c := by
    unfold readXML writeXML
    simp only [readPresetNodes_written, QMap.insertAll_entries]
  exact ⟨c, hrt, rfl, rfl, fun _ => ⟨rfl, rfl, rfl, rfl⟩⟩

end QgsVisibilityPresetCollection
